import Mathlib

/-!
Shallow embedding of the cache simulator in `src/Cache.cpp` (classes `Cache`
and `Access`), together with proofs about the properties claimed of it.

Conventions of the embedding:
- C++ strings become `List Char`; machine integers (`size_t`) become `Nat`
  (all quantities in scope stay far below `2 ^ 64`, so no wraparound occurs
  on the inputs the theorems speak about).
- `std::string::substr`, which throws `std::out_of_range` when `pos > size()`,
  becomes an `Option`-returning function.
- `Cache::getOldest`, which can return an uninitialized local when no valid
  slot has age `> 0`, returns `Option Nat`, with `none` standing for the
  undefined-behavior branch; `Cache::Read` and `Cache::Write` propagate that
  `none` (and also return `none` on an out-of-range set index, which would be
  a `std::vector` out-of-bounds access in the C++).
-/

namespace CacheSim

/-- One step of `Cache::parseHex`: the if/else-if chain mapping one hex
character to four binary characters.  A character matching none of the
sixteen cases contributes nothing (the chain simply falls through). -/
def hexToBin (c : Char) : List Char :=
  if c = '0' then ['0','0','0','0']
  else if c = '1' then ['0','0','0','1']
  else if c = '2' then ['0','0','1','0']
  else if c = '3' then ['0','0','1','1']
  else if c = '4' then ['0','1','0','0']
  else if c = '5' then ['0','1','0','1']
  else if c = '6' then ['0','1','1','0']
  else if c = '7' then ['0','1','1','1']
  else if c = '8' then ['1','0','0','0']
  else if c = '9' then ['1','0','0','1']
  else if c = 'a' then ['1','0','1','0']
  else if c = 'b' then ['1','0','1','1']
  else if c = 'c' then ['1','1','0','0']
  else if c = 'd' then ['1','1','0','1']
  else if c = 'e' then ['1','1','1','0']
  else if c = 'f' then ['1','1','1','1']
  else []

/-- `Cache::parseHex`: converts a hex string to a binary string by
concatenating the expansion of each character in order. -/
def parseHex : List Char → List Char
  | [] => []
  | c :: rest => hexToBin c ++ parseHex rest

/-- The sixteen characters `Cache::parseHex` recognizes. -/
def isHexLower (c : Char) : Bool :=
  decide (c = '0' ∨ c = '1' ∨ c = '2' ∨ c = '3' ∨ c = '4' ∨ c = '5' ∨ c = '6' ∨ c = '7' ∨
    c = '8' ∨ c = '9' ∨ c = 'a' ∨ c = 'b' ∨ c = 'c' ∨ c = 'd' ∨ c = 'e' ∨ c = 'f')

/-- `Cache::binStringToInt`: iterates the string from its last character,
adding `2 ^ i` for every `'1'` at distance `i` from the end (any character
other than `'1'` contributes nothing). -/
def binStringToInt : List Char → Nat
  | [] => 0
  | c :: rest => (if c = '1' then 2 ^ rest.length else 0) + binStringToInt rest

/-- `std::string::substr(pos, len)`: throws `std::out_of_range` when
`pos > size()`, otherwise yields at most `len` characters starting at `pos`. -/
def substr (s : List Char) (pos len : Nat) : Option (List Char) :=
  if pos ≤ s.length then some ((s.drop pos).take len) else none

/-- Fuel-driven floor base-2 logarithm; models `(size_t)std::log2(n)` on the
integer inputs the simulator feeds it (exact for powers of two). -/
def ilog2Go : Nat → Nat → Nat
  | 0, _ => 0
  | fuel + 1, n => if 2 ≤ n then ilog2Go fuel (n / 2) + 1 else 0

/-- Floor base-2 logarithm with fuel `n` (enough since the argument halves). -/
def ilog2 (n : Nat) : Nat := ilog2Go n n

/-- The three configuration numbers read by `Cache::Cache`, in file order:
associativity (`setSize_`), line size (`lineSize_`), cache size (`cacheSize_`). -/
structure Config where
  setSize : Nat
  lineSize : Nat
  cacheSize : Nat
deriving Repr, DecidableEq

/-- `Cache::calcNumSets(c, s, l) = c / (s * l)`. -/
def calcNumSets (c s l : Nat) : Nat := c / (s * l)

/-- `numSets_ = calcNumSets(cacheSize_, setSize_, lineSize_)`. -/
def Config.numSets (cfg : Config) : Nat := calcNumSets cfg.cacheSize cfg.setSize cfg.lineSize

/-- `indexBits_ = (size_t)std::log2(cacheSize_)`. -/
def Config.indexBits (cfg : Config) : Nat := ilog2 cfg.cacheSize

/-- `offsetBits_ = (size_t)std::log2(lineSize_)`. -/
def Config.offsetBits (cfg : Config) : Nat := ilog2 cfg.lineSize

/-- `tagBits_ = 32 - indexBits_ + (size_t)std::log2(setSize_)`. -/
def Config.tagBits (cfg : Config) : Nat := 32 - cfg.indexBits + ilog2 cfg.setSize

/-- The configurations the spec calls valid: associativity, line size and
cache size are compatible powers of two (at least one set, and the binary
expansion of an address covers every field the decoder slices out). -/
def Config.Valid (cfg : Config) : Prop :=
  ∃ a l c : Nat, cfg.setSize = 2 ^ a ∧ cfg.lineSize = 2 ^ l ∧ cfg.cacheSize = 2 ^ c ∧
    a + l ≤ c ∧ c + l ≤ 32

/-- `Cache::calcIndex`: value of the `indexBits_`-wide substring starting at
`(32 - offsetBits_) - indexBits_`, reduced modulo `numSets_`. -/
def calcIndex (cfg : Config) (s : List Char) : Option Nat :=
  match substr (parseHex s) (32 - cfg.offsetBits - cfg.indexBits) cfg.indexBits with
  | some indexStr => some (binStringToInt indexStr % cfg.numSets)
  | none => none

/-- `Cache::calcTag`: value of the first `tagBits_` characters. -/
def calcTag (cfg : Config) (s : List Char) : Option Nat :=
  match substr (parseHex s) 0 cfg.tagBits with
  | some tagStr => some (binStringToInt tagStr)
  | none => none

/-- `Cache::calcOffset`: value of the `offsetBits_`-wide substring starting
at `32 - offsetBits_`. -/
def calcOffset (cfg : Config) (s : List Char) : Option Nat :=
  match substr (parseHex s) (32 - cfg.offsetBits) cfg.offsetBits with
  | some offsetStr => some (binStringToInt offsetStr)
  | none => none

/-- Class `Access`: one cache line slot / one trace record (the C++ uses the
same class for both). -/
structure Access where
  op : String
  refSize : String
  address : List Char
  age : Nat
  offset : Nat
  index : Nat
  tag : Nat
  valid : Bool
  dirty : Bool
deriving Repr, DecidableEq

/-- `Access::Access()`: everything zeroed, `valid_(0)`, `dirty_(0)`. -/
def Access.mkDefault : Access := ⟨"", "", [], 0, 0, 0, 0, false, false⟩

/-- `Access::Access(std::string)`: sets the operation and `valid_(1)`. -/
def Access.mkOp (s : String) : Access := ⟨s, "", [], 0, 0, 0, 0, true, false⟩

/-- `Access::setAddress`: zero-pads the address on the left to 8 hex
characters. -/
def setAddress (t : List Char) : List Char := List.replicate (8 - t.length) '0' ++ t

/-- `Cache::addAge` restricted to one set: increments the age of every valid
slot, in place. -/
def addAgeSet (s : List Access) : List Access :=
  s.map fun a => if a.valid then { a with age := a.age + 1 } else a

/-- `Cache::isFull`: true iff every slot of the set is valid. -/
def isFull (s : List Access) : Bool := s.all fun a => a.valid

/-- `Cache::Insert` restricted to one set: overwrite the first invalid slot;
`none` models the `return 0` (no slot free, set unchanged). -/
def Insert : List Access → Access → Option (List Access)
  | [], _ => none
  | x :: rest, a => if x.valid then (Insert rest a).map (x :: ·) else some (a :: rest)

/-- The hit-scan loop of `Cache::Read` / `Cache::Write`: index of the first
slot that is valid and holds the probed tag. -/
def findMatchGo : List Access → Nat → Nat → Option Nat
  | [], _, _ => none
  | a :: rest, tg, i => if a.valid && a.tag == tg then some i else findMatchGo rest tg (i + 1)

/-- First valid slot of the set holding the probed tag, if any. -/
def findMatch (s : List Access) (tg : Nat) : Option Nat := findMatchGo s tg 0

/-- The loop body of `Cache::getOldest`: running maximum `age` (started at 0)
and current best index (`oldest`, uninitialized at first, hence `Option`). -/
def getOldestGo : List Access → Nat → Nat → Option Nat → Option Nat
  | [], _, _, best => best
  | a :: rest, i, age, best =>
    if a.valid && decide (age < a.age) then getOldestGo rest (i + 1) a.age (some i)
    else getOldestGo rest (i + 1) age best

/-- `Cache::getOldest`: index of the first valid slot attaining the maximal
age, provided some valid slot has age `> 0`; `none` models the return of the
uninitialized local `oldest`. -/
def getOldest (s : List Access) : Option Nat := getOldestGo s 0 0 none

/-- The mutable members of `Cache` touched by the simulation loop. -/
structure CacheState where
  cache : List (List Access)
  hitMiss : List Bool
  hits : Nat
  accesses : Nat
deriving Repr, DecidableEq

/-- The state after `Cache::Cache`: `numSets_` sets of `setSize_`
default-constructed (invalid) slots, no outcomes, zero counters. -/
def initState (numSets setSize : Nat) : CacheState :=
  ⟨List.replicate numSets (List.replicate setSize Access.mkDefault), [], 0, 0⟩

/-- `Cache::Read`: age the target set, scan for a hit, otherwise insert or
evict the oldest slot.  Returns the new state plus the hit flag; `none`
models undefined behavior (out-of-range set index, or the uninitialized
result of `getOldest`). -/
def Read (st : CacheState) (r : Access) : Option (CacheState × Bool) :=
  match st.cache[r.index]? with
  | none => none
  | some set =>
    match findMatch (addAgeSet set) r.tag with
    | some _ =>
      some (⟨st.cache.set r.index (addAgeSet set), st.hitMiss ++ [true],
        st.hits, st.accesses⟩, true)
    | none =>
      if isFull (addAgeSet set) then
        match getOldest (addAgeSet set) with
        | some j =>
          some (⟨st.cache.set r.index ((addAgeSet set).set j { r with valid := true }),
            st.hitMiss ++ [false], st.hits, st.accesses⟩, false)
        | none => none
      else
        match Insert (addAgeSet set) { r with valid := true } with
        | some out =>
          some (⟨st.cache.set r.index out, st.hitMiss ++ [false], st.hits, st.accesses⟩, false)
        | none =>
          some (⟨st.cache.set r.index (addAgeSet set), st.hitMiss ++ [false],
            st.hits, st.accesses⟩, false)

/-- `cache_[t][i].setDirty()` on one set, leaving the set unchanged when the
index is out of range. -/
def setDirtyAt (s : List Access) (i : Nat) : List Access :=
  match s[i]? with
  | some a => s.set i { a with dirty := true }
  | none => s

/-- `Cache::Write`: identical to `Cache::Read` except that a hit additionally
sets the matched slot's dirty flag. -/
def Write (st : CacheState) (w : Access) : Option (CacheState × Bool) :=
  match st.cache[w.index]? with
  | none => none
  | some set =>
    match findMatch (addAgeSet set) w.tag with
    | some i =>
      some (⟨st.cache.set w.index (setDirtyAt (addAgeSet set) i), st.hitMiss ++ [true],
        st.hits, st.accesses⟩, true)
    | none =>
      if isFull (addAgeSet set) then
        match getOldest (addAgeSet set) with
        | some j =>
          some (⟨st.cache.set w.index ((addAgeSet set).set j { w with valid := true }),
            st.hitMiss ++ [false], st.hits, st.accesses⟩, false)
        | none => none
      else
        match Insert (addAgeSet set) { w with valid := true } with
        | some out =>
          some (⟨st.cache.set w.index out, st.hitMiss ++ [false], st.hits, st.accesses⟩, false)
        | none =>
          some (⟨st.cache.set w.index (addAgeSet set), st.hitMiss ++ [false],
            st.hits, st.accesses⟩, false)

/-- One iteration of the processing loop in `Cache::operator()`: dispatch on
the stored operation string, update `hits_` / `accesses_`; a record whose
operation is neither `"Read"` nor `"Write"` matches neither branch and
changes nothing. -/
def processOne (st : CacheState) (a : Access) : Option CacheState :=
  if a.op = "Read" then
    match Read st a with
    | some (st', true) => some { st' with hits := st'.hits + 1, accesses := st'.accesses + 1 }
    | some (st', false) => some { st' with accesses := st'.accesses + 1 }
    | none => none
  else if a.op = "Write" then
    match Write st a with
    | some (st', true) => some { st' with hits := st'.hits + 1, accesses := st'.accesses + 1 }
    | some (st', false) => some { st' with accesses := st'.accesses + 1 }
    | none => none
  else some st

/-- The processing loop of `Cache::operator()` over the parsed trace. -/
def processTrace : CacheState → List Access → Option CacheState
  | st, [] => some st
  | st, a :: rest =>
    match processOne st a with
    | some st' => processTrace st' rest
    | none => none

/-- The per-record parsing phase of `Cache::operator()`: map the `R`/`W`
token to `Read`/`Write` (anything else leaves the operation empty), store the
reference size, pad the address, and decode index, offset and tag. -/
def buildAccess (cfg : Config) (opTok refSize addr : String) : Option Access :=
  let op := if opTok = "R" then "Read" else if opTok = "W" then "Write" else ""
  let a := Access.mkOp op
  let address := setAddress addr.data
  match calcIndex cfg address, calcOffset cfg address, calcTag cfg address with
  | some idx, some off, some tg =>
    some { a with refSize := refSize, address := address, index := idx, offset := off, tag := tg }
  | _, _, _ => none

/-- The direct-mapped 16-byte example configuration from the spec:
associativity 1, line size 4, cache size 16. -/
def cfg16 : Config := ⟨1, 4, 16⟩

/-- A configuration with 16-byte lines (associativity 1, cache size 256),
used to probe the handling of malformed addresses. -/
def cfgBig : Config := ⟨1, 16, 256⟩

/-- The spec's three-access example trace, parsed against `cfg16`. -/
def c6trace : Option (List Access) :=
  match buildAccess cfg16 "R" "4" "00000000", buildAccess cfg16 "R" "4" "00000010",
    buildAccess cfg16 "R" "4" "00000000" with
  | some a1, some a2, some a3 => some [a1, a2, a3]
  | _, _, _ => none

/-- States reachable from a freshly constructed cache by `Read` / `Write`
steps (the only mutators the processing loop invokes). -/
inductive Reachable : CacheState → Prop
  | init (numSets setSize : Nat) : Reachable (initState numSets setSize)
  | read (st : CacheState) (a : Access) (st' : CacheState) (h : Bool) :
      Reachable st → Read st a = some (st', h) → Reachable st'
  | write (st : CacheState) (a : Access) (st' : CacheState) (h : Bool) :
      Reachable st → Write st a = some (st', h) → Reachable st'

/-- Within one set, no two distinct valid slots hold the same tag. -/
def TagsUnique (s : List Access) : Prop :=
  ∀ (i j : Nat) (a b : Access), s[i]? = some a → s[j]? = some b →
    a.valid = true → b.valid = true → a.tag = b.tag → i = j

/-! ### Shapes of successful `Read` and `Write` steps -/

lemma Insert_eq_set : ∀ (s : List Access) (a : Access) (out : List Access),
    Insert s a = some out →
    ∃ j x, s[j]? = some x ∧ x.valid = false ∧ j < s.length ∧ out = s.set j a := by
  intro s
  induction s with
  | nil => intro a out h; exact Option.noConfusion h
  | cons y rest ih =>
    intro a out h
    by_cases hv : y.valid = true
    · rw [Insert, if_pos hv] at h
      obtain ⟨out', hout', rfl⟩ := Option.map_eq_some'.mp h
      obtain ⟨j, x, hx, hxv, hlt, hset⟩ := ih a out' hout'
      exact ⟨j + 1, x, by simpa using hx, hxv, by simp; omega, by simp [hset]⟩
    · rw [Insert, if_neg hv] at h
      obtain rfl := (Option.some.injEq _ _).mp h
      exact ⟨0, y, by simp, by simpa using hv, by simp, rfl⟩

lemma Read_some_shape {st : CacheState} {r : Access} {st' : CacheState} {h : Bool}
    (hr : Read st r = some (st', h)) :
    ∃ set, st.cache[r.index]? = some set ∧
      st'.hits = st.hits ∧ st'.accesses = st.accesses ∧ st'.hitMiss = st.hitMiss ++ [h] ∧
      ((h = true ∧ (∃ m, findMatch (addAgeSet set) r.tag = some m) ∧
          st'.cache = st.cache.set r.index (addAgeSet set)) ∨
       (h = false ∧ findMatch (addAgeSet set) r.tag = none ∧
         ∃ X, st'.cache = st.cache.set r.index X ∧
           ((isFull (addAgeSet set) = true ∧ ∃ j, getOldest (addAgeSet set) = some j ∧
               X = (addAgeSet set).set j { r with valid := true }) ∨
            (isFull (addAgeSet set) = false ∧
              ((∃ j x, (addAgeSet set)[j]? = some x ∧ x.valid = false ∧
                  j < (addAgeSet set).length ∧
                  X = (addAgeSet set).set j { r with valid := true }) ∨
                X = addAgeSet set))))) := by
  unfold Read at hr
  cases hset : st.cache[r.index]? with
  | none => rw [hset] at hr; exact Option.noConfusion hr
  | some set =>
    rw [hset] at hr
    simp only [] at hr
    cases hfm : findMatch (addAgeSet set) r.tag with
    | some m =>
      rw [hfm] at hr
      simp only [Option.some.injEq, Prod.mk.injEq] at hr
      obtain ⟨h1, h2⟩ := hr
      subst h1; subst h2
      exact ⟨set, rfl, rfl, rfl, rfl, Or.inl ⟨rfl, ⟨m, hfm⟩, rfl⟩⟩
    | none =>
      rw [hfm] at hr
      simp only [] at hr
      by_cases hfull : isFull (addAgeSet set) = true
      · rw [if_pos hfull] at hr
        cases hold : getOldest (addAgeSet set) with
        | none => rw [hold] at hr; exact Option.noConfusion hr
        | some j =>
          rw [hold] at hr
          simp only [Option.some.injEq, Prod.mk.injEq] at hr
          obtain ⟨h1, h2⟩ := hr
          subst h1; subst h2
          exact ⟨set, rfl, rfl, rfl, rfl, Or.inr ⟨rfl, hfm, _, rfl,
            Or.inl ⟨hfull, j, hold, rfl⟩⟩⟩
      · have hfull2 : isFull (addAgeSet set) = false := by simpa using hfull
        rw [if_neg hfull] at hr
        cases hins : Insert (addAgeSet set) { r with valid := true } with
        | some out =>
          rw [hins] at hr
          simp only [Option.some.injEq, Prod.mk.injEq] at hr
          obtain ⟨h1, h2⟩ := hr
          subst h1; subst h2
          obtain ⟨j, x, hx, hxv, hlt, hout⟩ := Insert_eq_set _ _ _ hins
          exact ⟨set, rfl, rfl, rfl, rfl, Or.inr ⟨rfl, hfm, out, rfl,
            Or.inr ⟨hfull2, Or.inl ⟨j, x, hx, hxv, hlt, hout⟩⟩⟩⟩
        | none =>
          rw [hins] at hr
          simp only [Option.some.injEq, Prod.mk.injEq] at hr
          obtain ⟨h1, h2⟩ := hr
          subst h1; subst h2
          exact ⟨set, rfl, rfl, rfl, rfl, Or.inr ⟨rfl, hfm, _, rfl,
            Or.inr ⟨hfull2, Or.inr rfl⟩⟩⟩

lemma Write_some_shape {st : CacheState} {w : Access} {st' : CacheState} {h : Bool}
    (hw : Write st w = some (st', h)) :
    ∃ set, st.cache[w.index]? = some set ∧
      st'.hits = st.hits ∧ st'.accesses = st.accesses ∧ st'.hitMiss = st.hitMiss ++ [h] ∧
      ((h = true ∧ ∃ m, findMatch (addAgeSet set) w.tag = some m ∧
          st'.cache = st.cache.set w.index (setDirtyAt (addAgeSet set) m)) ∨
       (h = false ∧ findMatch (addAgeSet set) w.tag = none ∧
         ∃ X, st'.cache = st.cache.set w.index X ∧
           ((isFull (addAgeSet set) = true ∧ ∃ j, getOldest (addAgeSet set) = some j ∧
               X = (addAgeSet set).set j { w with valid := true }) ∨
            (isFull (addAgeSet set) = false ∧
              ((∃ j x, (addAgeSet set)[j]? = some x ∧ x.valid = false ∧
                  j < (addAgeSet set).length ∧
                  X = (addAgeSet set).set j { w with valid := true }) ∨
                X = addAgeSet set))))) := by
  unfold Write at hw
  cases hset : st.cache[w.index]? with
  | none => rw [hset] at hw; exact Option.noConfusion hw
  | some set =>
    rw [hset] at hw
    simp only [] at hw
    cases hfm : findMatch (addAgeSet set) w.tag with
    | some m =>
      rw [hfm] at hw
      simp only [Option.some.injEq, Prod.mk.injEq] at hw
      obtain ⟨h1, h2⟩ := hw
      subst h1; subst h2
      exact ⟨set, rfl, rfl, rfl, rfl, Or.inl ⟨rfl, m, hfm, rfl⟩⟩
    | none =>
      rw [hfm] at hw
      simp only [] at hw
      by_cases hfull : isFull (addAgeSet set) = true
      · rw [if_pos hfull] at hw
        cases hold : getOldest (addAgeSet set) with
        | none => rw [hold] at hw; exact Option.noConfusion hw
        | some j =>
          rw [hold] at hw
          simp only [Option.some.injEq, Prod.mk.injEq] at hw
          obtain ⟨h1, h2⟩ := hw
          subst h1; subst h2
          exact ⟨set, rfl, rfl, rfl, rfl, Or.inr ⟨rfl, hfm, _, rfl,
            Or.inl ⟨hfull, j, hold, rfl⟩⟩⟩
      · have hfull2 : isFull (addAgeSet set) = false := by simpa using hfull
        rw [if_neg hfull] at hw
        cases hins : Insert (addAgeSet set) { w with valid := true } with
        | some out =>
          rw [hins] at hw
          simp only [Option.some.injEq, Prod.mk.injEq] at hw
          obtain ⟨h1, h2⟩ := hw
          subst h1; subst h2
          obtain ⟨j, x, hx, hxv, hlt, hout⟩ := Insert_eq_set _ _ _ hins
          exact ⟨set, rfl, rfl, rfl, rfl, Or.inr ⟨rfl, hfm, out, rfl,
            Or.inr ⟨hfull2, Or.inl ⟨j, x, hx, hxv, hlt, hout⟩⟩⟩⟩
        | none =>
          rw [hins] at hw
          simp only [Option.some.injEq, Prod.mk.injEq] at hw
          obtain ⟨h1, h2⟩ := hw
          subst h1; subst h2
          exact ⟨set, rfl, rfl, rfl, rfl, Or.inr ⟨rfl, hfm, _, rfl,
            Or.inr ⟨hfull2, Or.inr rfl⟩⟩⟩

/-! ### Arithmetic facts about the derived configuration values -/

lemma ilog2Go_two_pow : ∀ (fuel k : Nat), 2 ^ k ≤ fuel → ilog2Go fuel (2 ^ k) = k := by
  intro fuel
  induction fuel with
  | zero =>
    intro k hk
    have := Nat.two_pow_pos k
    omega
  | succ fuel ih =>
    intro k hk
    cases k with
    | zero => simp [ilog2Go]
    | succ j =>
      have hp : 0 < 2 ^ j := Nat.two_pow_pos j
      have h2 : 2 ≤ 2 ^ (j + 1) := by
        rw [Nat.pow_succ]
        omega
      have hdiv : 2 ^ (j + 1) / 2 = 2 ^ j := by
        rw [Nat.pow_succ, Nat.mul_div_cancel _ (by omega)]
      have hfuel : 2 ^ j ≤ fuel := by
        rw [Nat.pow_succ] at hk
        omega
      simp only [ilog2Go, if_pos h2, hdiv, ih j hfuel]

lemma ilog2_two_pow (k : Nat) : ilog2 (2 ^ k) = k :=
  ilog2Go_two_pow _ _ le_rfl

lemma Config.derived_of_pow {cfg : Config} {a l c : Nat}
    (hs : cfg.setSize = 2 ^ a) (hl : cfg.lineSize = 2 ^ l) (hc : cfg.cacheSize = 2 ^ c)
    (hac : a + l ≤ c) :
    cfg.offsetBits = l ∧ cfg.indexBits = c ∧ cfg.tagBits = 32 - c + a ∧
      cfg.numSets = 2 ^ (c - a - l) := by
  refine ⟨?_, ?_, ?_, ?_⟩
  · rw [Config.offsetBits, hl, ilog2_two_pow]
  · rw [Config.indexBits, hc, ilog2_two_pow]
  · rw [Config.tagBits, Config.indexBits, hc, hs, ilog2_two_pow, ilog2_two_pow]
  · rw [Config.numSets, calcNumSets, hs, hl, hc, ← pow_add,
      Nat.pow_div (by omega) (by omega), Nat.sub_sub]

/-- C3 (amended): for valid power-of-two configurations the constructor
computes `offsetBits = log2(L)` as claimed, but `indexBits = log2(C)` (not
`log2(numSets)`) and `tagBits = 32 − log2(C) + log2(A)`; the latter still
equals `32 − offsetBits − log2(numSets)`, and the three widths sum to
`32 + log2(A) + log2(L)`, which is 32 only when `A = L = 1`. -/
theorem c3_bit_widths (cfg : Config) (a l c : Nat)
    (hs : cfg.setSize = 2 ^ a) (hl : cfg.lineSize = 2 ^ l) (hc : cfg.cacheSize = 2 ^ c)
    (hac : a + l ≤ c) (hc32 : c + l ≤ 32) :
    cfg.offsetBits = l ∧ cfg.indexBits = c ∧ cfg.tagBits = 32 - c + a ∧
    cfg.tagBits = 32 - cfg.offsetBits - ilog2 cfg.numSets ∧
    cfg.offsetBits + cfg.indexBits + cfg.tagBits = 32 + a + l := by
  obtain ⟨ho, hi, ht, hn⟩ := Config.derived_of_pow hs hl hc hac
  refine ⟨ho, hi, ht, ?_, ?_⟩
  · rw [ht, ho, hn, ilog2_two_pow]
    omega
  · rw [ho, hi, ht]
    omega

/-- Witness for `c3_bit_widths` at the spec's example configuration
`{associativity 1, line size 4, cache size 16}`. -/
theorem c3_bit_widths_witness :
    cfg16.offsetBits = 2 ∧ cfg16.indexBits = 4 ∧ cfg16.tagBits = 32 - 4 + 0 ∧
    cfg16.tagBits = 32 - cfg16.offsetBits - ilog2 cfg16.numSets ∧
    cfg16.offsetBits + cfg16.indexBits + cfg16.tagBits = 32 + 0 + 2 :=
  c3_bit_widths cfg16 0 2 4 (by decide) (by decide) (by decide) (by decide) (by decide)

/-- C3 fails as stated: at configuration `{A=1, L=4, C=16}` the constructor
sets `indexBits = log2(cacheSize) = 4`, not `log2(numSets) = 2`, and the
widths sum to 34, not 32. -/
theorem c3_counterexample :
    cfg16.indexBits ≠ ilog2 cfg16.numSets ∧
    cfg16.offsetBits + cfg16.indexBits + cfg16.tagBits ≠ 32 := by decide

/-- C6 (amended): for `{A=1, L=4, C=16}` the derived values are
`numSets = 4`, `offsetBits = 2`, `indexBits = 4` (not 2), `tagBits = 28`,
and the trace `R:4:00000000`, `R:4:00000010`, `R:4:00000000` yields
Miss, Miss, Miss: the second access maps to the *same* set index 0 as the
first (its tag differs), so with associativity 1 it evicts the first line
and the third access misses. -/
theorem c6_example_trace :
    cfg16.numSets = 4 ∧ cfg16.offsetBits = 2 ∧ cfg16.indexBits = 4 ∧ cfg16.tagBits = 28 ∧
    (buildAccess cfg16 "R" "4" "00000000").map Access.index = some 0 ∧
    (buildAccess cfg16 "R" "4" "00000010").map Access.index = some 0 ∧
    (buildAccess cfg16 "R" "4" "00000000").map Access.tag = some 0 ∧
    (buildAccess cfg16 "R" "4" "00000010").map Access.tag = some 1 ∧
    (c6trace.bind (processTrace (initState 4 1))).map CacheState.hitMiss =
      some [false, false, false] ∧
    (c6trace.bind (processTrace (initState 4 1))).map CacheState.hits = some 0 ∧
    (c6trace.bind (processTrace (initState 4 1))).map CacheState.accesses = some 3 := by
  decide

/-- C6 fails as stated: `indexBits` is 4 rather than 2, the second access
maps to the same set index as the first rather than a different one, and the
outcome sequence is not Miss, Miss, Hit. -/
theorem c6_counterexample :
    cfg16.indexBits ≠ 2 ∧
    (buildAccess cfg16 "R" "4" "00000010").map Access.index =
      (buildAccess cfg16 "R" "4" "00000000").map Access.index ∧
    (c6trace.bind (processTrace (initState 4 1))).map CacheState.hitMiss ≠
      some [false, false, true] := by
  decide

/-! ### Malformed addresses (C9) -/

lemma hexToBin_eq_nil {c : Char} (h : isHexLower c = false) : hexToBin c = [] := by
  rw [isHexLower, decide_eq_false_iff_not] at h
  push_neg at h
  obtain ⟨h0, h1, h2, h3, h4, h5, h6, h7, h8, h9, ha, hb, hc, hd, he, hf⟩ := h
  simp [hexToBin, h0, h1, h2, h3, h4, h5, h6, h7, h8, h9, ha, hb, hc, hd, he, hf]

lemma parseHex_filter : ∀ s : List Char, parseHex s = parseHex (s.filter isHexLower) := by
  intro s
  induction s with
  | nil => rfl
  | cons c rest ih =>
    by_cases h : isHexLower c = true
    · rw [parseHex, List.filter_cons_of_pos h, parseHex, ih]
    · have h' : isHexLower c = false := by
        cases hcv : isHexLower c
        · rfl
        · exact absurd hcv h
      rw [parseHex, List.filter_cons_of_neg (by simp [h']), hexToBin_eq_nil h', List.nil_append,
        ih]

/-- C9 (amended): a non-hex character in the address is not a hard error in
decoding; `parseHex` silently drops it (conversion equals conversion of the
hex-only subsequence), and field extraction only signals `std::out_of_range`
when the shortened binary string no longer reaches the field's start
position — e.g. the offset slice fails exactly when the binary string is
shorter than `32 − offsetBits`. -/
theorem c9_nonhex_dropped (s : List Char) :
    parseHex s = parseHex (s.filter isHexLower) ∧
    (∀ cfg : Config, calcOffset cfg s = none ↔ (parseHex s).length < 32 - cfg.offsetBits) := by
  refine ⟨parseHex_filter s, ?_⟩
  intro cfg
  by_cases hp : 32 - cfg.offsetBits ≤ (parseHex s).length
  · simp only [calcOffset, substr, if_pos hp]
    constructor
    · intro h
      exact absurd h (by simp)
    · omega
  · simp only [calcOffset, substr, if_neg hp]
    constructor
    · intro _
      omega
    · intro _
      trivial

/-- C9 fails as stated: against `{A=1, L=16, C=256}` the malformed address
`0000001z` (containing the non-hex character `z`) is decoded without any
error to index 1, tag 0, offset 0. -/
theorem c9_counterexample :
    isHexLower 'z' = false ∧
    (buildAccess cfgBig "R" "4" "0000001z").map Access.index = some 1 ∧
    (buildAccess cfgBig "R" "4" "0000001z").map Access.tag = some 0 ∧
    (buildAccess cfgBig "R" "4" "0000001z").map Access.offset = some 0 := by
  decide

/-! ### Outcome log and counters (C7) -/

lemma processOne_counters {st : CacheState} {a : Access} {st1 : CacheState}
    (hpo : processOne st a = some st1) :
    (st1 = st ∧ a.op ≠ "Read" ∧ a.op ≠ "Write") ∨
    (st1.accesses = st.accesses + 1 ∧ st1.hitMiss.length = st.hitMiss.length + 1 ∧
      st1.hits ≤ st.hits + 1) := by
  unfold processOne at hpo
  by_cases hR : a.op = "Read"
  · rw [if_pos hR] at hpo
    cases hrd : Read st a with
    | none => rw [hrd] at hpo; exact Option.noConfusion hpo
    | some p =>
      obtain ⟨st2, b⟩ := p
      rw [hrd] at hpo
      obtain ⟨set, _, hh2, ha2, hm2, _⟩ := Read_some_shape hrd
      have hlen2 : st2.hitMiss.length = st.hitMiss.length + 1 := by
        rw [hm2]; simp
      cases b
      · simp only [] at hpo
        obtain rfl := (Option.some.injEq _ _).mp hpo
        exact Or.inr ⟨by simp [ha2], by simp [hlen2], by simp [hh2]⟩
      · simp only [] at hpo
        obtain rfl := (Option.some.injEq _ _).mp hpo
        exact Or.inr ⟨by simp [ha2], by simp [hlen2], by simp [hh2]⟩
  · by_cases hW : a.op = "Write"
    · rw [if_neg hR, if_pos hW] at hpo
      cases hwr : Write st a with
      | none => rw [hwr] at hpo; exact Option.noConfusion hpo
      | some p =>
        obtain ⟨st2, b⟩ := p
        rw [hwr] at hpo
        obtain ⟨set, _, hh2, ha2, hm2, _⟩ := Write_some_shape hwr
        have hlen2 : st2.hitMiss.length = st.hitMiss.length + 1 := by
          rw [hm2]; simp
        cases b
        · simp only [] at hpo
          obtain rfl := (Option.some.injEq _ _).mp hpo
          exact Or.inr ⟨by simp [ha2], by simp [hlen2], by simp [hh2]⟩
        · simp only [] at hpo
          obtain rfl := (Option.some.injEq _ _).mp hpo
          exact Or.inr ⟨by simp [ha2], by simp [hlen2], by simp [hh2]⟩
    · rw [if_neg hR, if_neg hW] at hpo
      obtain rfl := (Option.some.injEq _ _).mp hpo
      exact Or.inl ⟨rfl, hR, hW⟩

/-- C7 (amended): along any successfully processed trace the outcome log and
the access counter advance in lockstep — `outcomes.length` and `accesses`
both grow by the same `k ≤ processed.length`, and `hits` grows by at most
`k`; `k` equals the full processed length exactly when every processed
record's operation is `Read` or `Write`.  A record with any other operation
stays in the processed trace but is counted in neither the outcome log nor
the counters, so in general `outcomes.length == accesses ≤ processed.length`
rather than the claimed three-way equality. -/
theorem c7_outcome_counters : ∀ (tr : List Access) (st st' : CacheState),
    processTrace st tr = some st' →
    ∃ k, k ≤ tr.length ∧ st'.accesses = st.accesses + k ∧
      st'.hitMiss.length = st.hitMiss.length + k ∧ st'.hits ≤ st.hits + k ∧
      ((∀ a ∈ tr, a.op = "Read" ∨ a.op = "Write") → k = tr.length) := by
  intro tr
  induction tr with
  | nil =>
    intro st st' hp
    obtain rfl : st = st' := by simpa [processTrace] using hp
    exact ⟨0, by simp, by simp, by simp, by simp, fun _ => rfl⟩
  | cons a rest ih =>
    intro st st' hp
    rw [processTrace] at hp
    cases hpo : processOne st a with
    | none => rw [hpo] at hp; exact Option.noConfusion hp
    | some st1 =>
      rw [hpo] at hp
      simp only [] at hp
      obtain ⟨k, hk, hacc, hlen, hhits, hall⟩ := ih st1 st' hp
      rcases processOne_counters hpo with ⟨rfl, hR, hW⟩ | ⟨ha1, hl1, hh1⟩
      · refine ⟨k, by simp; omega, hacc, hlen, hhits, ?_⟩
        intro hall2
        rcases hall2 a (by simp) with h | h
        · exact absurd h hR
        · exact absurd h hW
      · refine ⟨k + 1, by simp; omega, by omega, by omega, by omega, ?_⟩
        intro hall2
        have hk2 := hall fun x hx => hall2 x (List.mem_cons_of_mem _ hx)
        simp [hk2]

/-- Witness for `c7_outcome_counters`: one `Read` record processed from a
fresh one-set, one-slot cache gives one outcome and one access. -/
theorem c7_outcome_counters_witness :
    ∃ k, k ≤ [Access.mkOp "Read"].length ∧
      (⟨[[{ Access.mkOp "Read" with valid := true }]], [false], 0, 1⟩ : CacheState).accesses =
        (initState 1 1).accesses + k ∧
      (⟨[[{ Access.mkOp "Read" with valid := true }]], [false], 0, 1⟩ : CacheState).hitMiss.length =
        (initState 1 1).hitMiss.length + k ∧
      (⟨[[{ Access.mkOp "Read" with valid := true }]], [false], 0, 1⟩ : CacheState).hits ≤
        (initState 1 1).hits + k ∧
      ((∀ a ∈ [Access.mkOp "Read"], a.op = "Read" ∨ a.op = "Write") →
        k = [Access.mkOp "Read"].length) :=
  c7_outcome_counters [Access.mkOp "Read"] (initState 1 1)
    ⟨[[{ Access.mkOp "Read" with valid := true }]], [false], 0, 1⟩ (by decide)

/-- C7 fails as stated: the trace line `X:4:00000010` parses into a record
(the processed trace has length 1) whose operation is neither `Read` nor
`Write`, so processing it records no outcome and no access —
`outcomes.length = accesses = 0 ≠ 1 = processed.length`. -/
theorem c7_counterexample :
    ∃ a st', buildAccess cfg16 "X" "4" "00000010" = some a ∧
      processTrace (initState 4 1) [a] = some st' ∧
      st'.hitMiss.length = 0 ∧ st'.accesses = 0 ∧ [a].length = 1 ∧
      st'.accesses ≠ [a].length := by
  refine ⟨_, _, rfl, rfl, rfl, rfl, rfl, by decide⟩

/-! ### Aging happens once per access, before hit/miss resolution (C1) -/

lemma addAgeSet_getElem (s : List Access) (i : Nat) :
    (addAgeSet s)[i]? =
      (s[i]?).map fun a => if a.valid then { a with age := a.age + 1 } else a := by
  rw [addAgeSet, List.getElem?_map]

lemma point_aged {set : List Access} {i : Nat} {a a' : Access}
    (ha : set[i]? = some a) (ha' : (addAgeSet set)[i]? = some a') (hv : a.valid = true) :
    a'.age = a.age + 1 := by
  rw [addAgeSet_getElem, ha] at ha'
  simp only [Option.map_some', Option.some.injEq] at ha'
  rw [if_pos hv] at ha'
  rw [← ha']

lemma point_aged_set {set : List Access} {j : Nat} {r' : Access} {i : Nat} {a a' : Access}
    (ha : set[i]? = some a) (ha' : ((addAgeSet set).set j r')[i]? = some a')
    (hv : a.valid = true) :
    a'.age = a.age + 1 ∨ a' = r' := by
  rw [List.getElem?_set] at ha'
  by_cases hij : j = i
  · rw [if_pos hij] at ha'
    split at ha'
    · exact Or.inr ((Option.some.injEq _ _).mp ha').symm
    · exact Option.noConfusion ha'
  · rw [if_neg hij] at ha'
    exact Or.inl (point_aged ha ha' hv)

lemma point_setDirtyAt {set : List Access} {m i : Nat} {a a' : Access}
    (ha : set[i]? = some a) (ha' : (setDirtyAt (addAgeSet set) m)[i]? = some a')
    (hv : a.valid = true) :
    a'.age = a.age + 1 := by
  unfold setDirtyAt at ha'
  cases hx : (addAgeSet set)[m]? with
  | none =>
    rw [hx] at ha'
    simp only [] at ha'
    exact point_aged ha ha' hv
  | some x =>
    rw [hx] at ha'
    simp only [] at ha'
    rw [List.getElem?_set] at ha'
    by_cases hmi : m = i
    · rw [if_pos hmi] at ha'
      split at ha'
      · obtain rfl := ((Option.some.injEq _ _).mp ha').symm
        subst hmi
        show x.age = a.age + 1
        exact point_aged ha hx hv
      · exact Option.noConfusion ha'
    · rw [if_neg hmi] at ha'
      exact point_aged ha ha' hv

/-- C1: on every `Read` or `Write`, every slot of the target set that was
valid before the access has its age incremented by exactly one (the aging
runs before hit/miss resolution) unless the access is a miss that overwrote
that very slot with the incoming line; in particular on a hit every valid
slot — the matched line included — ends with its age incremented once, which
is in particular nonzero (the age is not reset to zero on a hit). -/
theorem c1_age_increment (st : CacheState) (r : Access) (st' : CacheState) (h : Bool)
    (sl sl' : List Access)
    (hrw : Read st r = some (st', h) ∨ Write st r = some (st', h))
    (hset : st.cache[r.index]? = some sl)
    (hset' : st'.cache[r.index]? = some sl') :
    (∀ (i : Nat) (a a' : Access), sl[i]? = some a → sl'[i]? = some a' → a.valid = true →
      a'.age = a.age + 1 ∨ a' = { r with valid := true }) ∧
    (h = true → ∀ (i : Nat) (a a' : Access), sl[i]? = some a → sl'[i]? = some a' →
      a.valid = true → a'.age = a.age + 1 ∧ a'.age ≠ 0) := by
  obtain ⟨hlt, -⟩ := List.getElem?_eq_some.mp hset
  rcases hrw with hr | hw
  · obtain ⟨sl0, hset0, -, -, -, hcase⟩ := Read_some_shape hr
    rw [hset] at hset0
    obtain rfl : sl = sl0 := (Option.some.injEq _ _).mp hset0
    rcases hcase with ⟨hh, -, hcache⟩ | ⟨hh, -, X, hcache, hX⟩
    · have hset2 : sl' = addAgeSet sl := by
        rw [hcache, List.getElem?_set, if_pos rfl, if_pos hlt] at hset'
        exact ((Option.some.injEq _ _).mp hset').symm
      subst hset2
      constructor
      · intro i a a' ha ha' hv
        exact Or.inl (point_aged ha ha' hv)
      · intro _ i a a' ha ha' hv
        have hage := point_aged ha ha' hv
        exact ⟨hage, by omega⟩
    · have hset2 : sl' = X := by
        rw [hcache, List.getElem?_set, if_pos rfl, if_pos hlt] at hset'
        exact ((Option.some.injEq _ _).mp hset').symm
      subst hset2
      constructor
      · intro i a a' ha ha' hv
        rcases hX with ⟨-, j, -, rfl⟩ | ⟨-, ⟨j, x, -, -, -, rfl⟩ | rfl⟩
        · exact point_aged_set ha ha' hv
        · exact point_aged_set ha ha' hv
        · exact Or.inl (point_aged ha ha' hv)
      · intro hh2
        rw [hh] at hh2
        exact absurd hh2 (by simp)
  · obtain ⟨sl0, hset0, -, -, -, hcase⟩ := Write_some_shape hw
    rw [hset] at hset0
    obtain rfl : sl = sl0 := (Option.some.injEq _ _).mp hset0
    rcases hcase with ⟨hh, m, -, hcache⟩ | ⟨hh, -, X, hcache, hX⟩
    · have hset2 : sl' = setDirtyAt (addAgeSet sl) m := by
        rw [hcache, List.getElem?_set, if_pos rfl, if_pos hlt] at hset'
        exact ((Option.some.injEq _ _).mp hset').symm
      subst hset2
      constructor
      · intro i a a' ha ha' hv
        exact Or.inl (point_setDirtyAt ha ha' hv)
      · intro _ i a a' ha ha' hv
        have hage := point_setDirtyAt ha ha' hv
        exact ⟨hage, by omega⟩
    · have hset2 : sl' = X := by
        rw [hcache, List.getElem?_set, if_pos rfl, if_pos hlt] at hset'
        exact ((Option.some.injEq _ _).mp hset').symm
      subst hset2
      constructor
      · intro i a a' ha ha' hv
        rcases hX with ⟨-, j, -, rfl⟩ | ⟨-, ⟨j, x, -, -, -, rfl⟩ | rfl⟩
        · exact point_aged_set ha ha' hv
        · exact point_aged_set ha ha' hv
        · exact Or.inl (point_aged ha ha' hv)
      · intro hh2
        rw [hh] at hh2
        exact absurd hh2 (by simp)

/-- A single resident line with tag 7 and age 3. -/
def probeLine : Access := ⟨"", "", [], 3, 0, 0, 7, true, false⟩

/-- The same line after one round of aging. -/
def probeLineAged : Access := ⟨"", "", [], 4, 0, 0, 7, true, false⟩

/-- A read access probing tag 7 in set 0. -/
def probeRead : Access := ⟨"Read", "4", [], 0, 0, 0, 7, true, false⟩

/-- A one-set, one-slot cache holding `probeLine`. -/
def probeState : CacheState := ⟨[[probeLine]], [], 0, 0⟩

/-- The state after `probeRead` hits `probeLine`. -/
def probeStateHit : CacheState := ⟨[[probeLineAged]], [true], 0, 0⟩

/-- Witness for `c1_age_increment`: the hit on `probeLine` leaves its age
incremented to 4, not reset to zero. -/
theorem c1_age_increment_witness :
    probeLineAged.age = probeLine.age + 1 ∧ probeLineAged.age ≠ 0 :=
  (c1_age_increment probeState probeRead probeStateHit true [probeLine] [probeLineAged]
      (Or.inl (by decide)) (by decide) (by decide)).2
    rfl 0 probeLine probeLineAged (by decide) (by decide) (by decide)

/-! ### When `getOldest` is well defined (C10) -/

lemma getOldestGo_isSome : ∀ (s : List Access) (k age : Nat) (best : Option Nat),
    (getOldestGo s k age best).isSome =
      (best.isSome || s.any fun x => x.valid && decide (age < x.age)) := by
  intro s
  induction s with
  | nil => intro k age best; simp [getOldestGo]
  | cons x rest ih =>
    intro k age best
    rw [getOldestGo]
    by_cases hc : (x.valid && decide (age < x.age)) = true
    · rw [if_pos hc, ih]
      simp [List.any_cons, hc]
    · have hc' : (x.valid && decide (age < x.age)) = false := by simpa using hc
      rw [if_neg hc, ih]
      simp [List.any_cons, hc']

lemma getOldest_isSome_iff (s : List Access) :
    (getOldest s).isSome = true ↔ ∃ x ∈ s, x.valid = true ∧ 0 < x.age := by
  rw [getOldest, getOldestGo_isSome]
  simp [List.any_eq_true]

lemma isFull_addAgeSet (s : List Access) : isFull (addAgeSet s) = isFull s := by
  have hf : ((fun a : Access => a.valid) ∘
      fun a : Access => if a.valid then { a with age := a.age + 1 } else a) =
      fun a : Access => a.valid := by
    funext a
    by_cases h : a.valid = true <;> simp [h]
  rw [isFull, isFull, addAgeSet, List.all_map, hf]

lemma getOldest_addAge_isSome {s : List Access} (hne : s ≠ []) (hfull : isFull s = true) :
    (getOldest (addAgeSet s)).isSome = true := by
  rcases s with _ | ⟨x, rest⟩
  · exact absurd rfl hne
  · have hx : x.valid = true := by
      rw [isFull] at hfull
      simpa using List.all_eq_true.mp hfull x (by simp)
    rw [getOldest_isSome_iff, addAgeSet]
    exact ⟨_, List.mem_map_of_mem _ (List.mem_cons_self x rest), by simp [hx]⟩

lemma read_write_isSome {st : CacheState} {a : Access}
    (hidx : a.index < st.cache.length) (hne : ∀ sl ∈ st.cache, sl ≠ []) :
    (Read st a).isSome = true ∧ (Write st a).isSome = true := by
  obtain ⟨sl, hsl⟩ : ∃ sl, st.cache[a.index]? = some sl :=
    ⟨st.cache[a.index], List.getElem?_eq_getElem hidx⟩
  have hslne : sl ≠ [] := hne sl (List.mem_iff_getElem?.mpr ⟨_, hsl⟩)
  constructor
  · unfold Read
    rw [hsl]
    simp only []
    cases hfm : findMatch (addAgeSet sl) a.tag with
    | some m => rfl
    | none =>
      simp only []
      by_cases hfull : isFull (addAgeSet sl) = true
      · rw [if_pos hfull]
        rw [isFull_addAgeSet] at hfull
        obtain ⟨j, hj⟩ := Option.isSome_iff_exists.mp (getOldest_addAge_isSome hslne hfull)
        rw [hj]
        rfl
      · rw [if_neg hfull]
        cases hins : Insert (addAgeSet sl) { a with valid := true } with
        | some out => rfl
        | none => rfl
  · unfold Write
    rw [hsl]
    simp only []
    cases hfm : findMatch (addAgeSet sl) a.tag with
    | some m => rfl
    | none =>
      simp only []
      by_cases hfull : isFull (addAgeSet sl) = true
      · rw [if_pos hfull]
        rw [isFull_addAgeSet] at hfull
        obtain ⟨j, hj⟩ := Option.isSome_iff_exists.mp (getOldest_addAge_isSome hslne hfull)
        rw [hj]
        rfl
      · rw [if_neg hfull]
        cases hins : Insert (addAgeSet sl) { a with valid := true } with
        | some out => rfl
        | none => rfl

/-- C10: `getOldest` yields a well-defined slot index exactly when some
valid slot of the set has age strictly greater than 0 (stronger than the
spec's "at least one valid slot"); at every call site that precondition
holds, because `addAge` has just run on the set — on a nonempty full set
every slot is then valid with age at least 1 — so a `Read` or `Write` on an
in-range set index of a cache with nonempty sets never reaches the
uninitialized-result branch. -/
theorem c10_getOldest_safety :
    (∀ s : List Access, (getOldest s).isSome = true ↔ ∃ x ∈ s, x.valid = true ∧ 0 < x.age) ∧
    (∀ s : List Access, s ≠ [] → isFull s = true →
      (getOldest (addAgeSet s)).isSome = true) ∧
    (∀ (st : CacheState) (a : Access), a.index < st.cache.length →
      (∀ sl ∈ st.cache, sl ≠ []) →
      (Read st a).isSome = true ∧ (Write st a).isSome = true) :=
  ⟨getOldest_isSome_iff, fun _ hne hfull => getOldest_addAge_isSome hne hfull,
    fun _ _ hidx hne => read_write_isSome hidx hne⟩

/-- Witness for `c10_getOldest_safety` on the one-slot probe cache. -/
theorem c10_getOldest_safety_witness :
    (getOldest (addAgeSet [probeLine])).isSome = true ∧
    (Read probeState probeRead).isSome = true ∧
    (Write probeState probeRead).isSome = true :=
  ⟨c10_getOldest_safety.2.1 [probeLine] (by decide) (by decide),
    (c10_getOldest_safety.2.2 probeState probeRead (by decide) (by decide)).1,
    (c10_getOldest_safety.2.2 probeState probeRead (by decide) (by decide)).2⟩

/-! ### Eviction selects the first oldest valid slot (C2) -/

lemma getOldestGo_no_better : ∀ (s : List Access) (k age : Nat) (best : Option Nat),
    (∀ x ∈ s, x.valid = true → x.age ≤ age) → getOldestGo s k age best = best := by
  intro s
  induction s with
  | nil => intro k age best _; rfl
  | cons x rest ih =>
    intro k age best h
    rw [getOldestGo]
    have hx : ¬ (x.valid && decide (age < x.age)) = true := by
      intro hc
      rw [Bool.and_eq_true, decide_eq_true_eq] at hc
      have := h x (by simp) hc.1
      omega
    rw [if_neg hx]
    exact ih _ _ _ fun y hy hv => h y (by simp [hy]) hv

lemma getOldestGo_argmax : ∀ (s : List Access) (k age : Nat) (best : Option Nat),
    (∀ x ∈ s, x.valid = true) →
    (∃ x ∈ s, age < x.age) →
    ∃ j aj, getOldestGo s k age best = some (k + j) ∧ s[j]? = some aj ∧ age < aj.age ∧
      (∀ (i : Nat) (ai : Access), s[i]? = some ai → ai.age ≤ aj.age) ∧
      (∀ (i : Nat) (ai : Access), i < j → s[i]? = some ai → ai.age < aj.age) := by
  intro s
  induction s with
  | nil => intro k age best _ hex; simp at hex
  | cons x rest ih =>
    intro k age best hall hex
    have hxv : x.valid = true := hall x (by simp)
    by_cases hlt : age < x.age
    · have hcond : (x.valid && decide (age < x.age)) = true := by simp [hxv, hlt]
      rw [getOldestGo, if_pos hcond]
      by_cases hex2 : ∃ y ∈ rest, x.age < y.age
      · obtain ⟨j', aj, hgo, hj', hagt, hmax, hfirst⟩ :=
          ih (k + 1) x.age (some k) (fun y hy => hall y (by simp [hy])) hex2
        refine ⟨j' + 1, aj, ?_, by simpa using hj', by omega, ?_, ?_⟩
        · rw [hgo]
          congr 1
          omega
        · intro i ai hi
          cases i with
          | zero =>
            rw [List.getElem?_cons_zero] at hi
            obtain rfl := (Option.some.injEq _ _).mp hi
            omega
          | succ i' =>
            rw [List.getElem?_cons_succ] at hi
            exact hmax i' ai hi
        · intro i ai hij hi
          cases i with
          | zero =>
            rw [List.getElem?_cons_zero] at hi
            obtain rfl := (Option.some.injEq _ _).mp hi
            omega
          | succ i' =>
            rw [List.getElem?_cons_succ] at hi
            exact hfirst i' ai (by omega) hi
      · push_neg at hex2
        have hstop : getOldestGo rest (k + 1) x.age (some k) = some k :=
          getOldestGo_no_better _ _ _ _ fun y hy _ => hex2 y hy
        refine ⟨0, x, ?_, by simp, hlt, ?_, ?_⟩
        · rw [hstop]
          simp
        · intro i ai hi
          cases i with
          | zero =>
            rw [List.getElem?_cons_zero] at hi
            obtain rfl := (Option.some.injEq _ _).mp hi
            omega
          | succ i' =>
            rw [List.getElem?_cons_succ] at hi
            have hmem : ai ∈ rest := List.mem_iff_getElem?.mpr ⟨i', hi⟩
            exact hex2 ai hmem
        · intro i ai hij _
          omega
    · have hcond : ¬ (x.valid && decide (age < x.age)) = true := by
        rw [Bool.and_eq_true, decide_eq_true_eq]
        intro hc
        exact hlt hc.2
      rw [getOldestGo, if_neg hcond]
      have hex2 : ∃ y ∈ rest, age < y.age := by
        obtain ⟨y, hy, hyl⟩ := hex
        rcases List.mem_cons.mp hy with rfl | hy'
        · omega
        · exact ⟨y, hy', hyl⟩
      obtain ⟨j', aj, hgo, hj', hagt, hmax, hfirst⟩ :=
        ih (k + 1) age best (fun y hy => hall y (by simp [hy])) hex2
      refine ⟨j' + 1, aj, ?_, by simpa using hj', hagt, ?_, ?_⟩
      · rw [hgo]
        congr 1
        omega
      · intro i ai hi
        cases i with
        | zero =>
          rw [List.getElem?_cons_zero] at hi
          obtain rfl := (Option.some.injEq _ _).mp hi
          omega
        | succ i' =>
          rw [List.getElem?_cons_succ] at hi
          exact hmax i' ai hi
      · intro i ai hij hi
        cases i with
        | zero =>
          rw [List.getElem?_cons_zero] at hi
          obtain rfl := (Option.some.injEq _ _).mp hi
          omega
        | succ i' =>
          rw [List.getElem?_cons_succ] at hi
          exact hfirst i' ai (by omega) hi

/-- C2: a miss on a full (nonempty) set evicts a valid slot whose age is
maximal among the set's slots, with ties broken by the lowest slot position
(every strictly earlier slot has a strictly smaller age), and immediately
after the eviction the overwritten slot holds the incoming line, whose age
is the initial 0. -/
theorem c2_eviction (st : CacheState) (r : Access) (sl : List Access)
    (hset : st.cache[r.index]? = some sl)
    (hfull : isFull sl = true)
    (hmiss : findMatch (addAgeSet sl) r.tag = none)
    (hne : sl ≠ [])
    (hage0 : r.age = 0) :
    ∃ j aj st', Read st r = some (st', false) ∧
      sl[j]? = some aj ∧ aj.valid = true ∧
      (∀ (i : Nat) (ai : Access), sl[i]? = some ai → ai.age ≤ aj.age) ∧
      (∀ (i : Nat) (ai : Access), i < j → sl[i]? = some ai → ai.age < aj.age) ∧
      st'.cache = st.cache.set r.index ((addAgeSet sl).set j { r with valid := true }) ∧
      ∃ sl', st'.cache[r.index]? = some sl' ∧ sl'[j]? = some { r with valid := true } ∧
        ({ r with valid := true } : Access).age = 0 := by
  have hallv : ∀ x ∈ sl, x.valid = true := by
    rw [isFull] at hfull
    intro x hx
    simpa using List.all_eq_true.mp hfull x hx
  have hallv2 : ∀ x ∈ addAgeSet sl, x.valid = true := by
    intro x hx
    rw [addAgeSet] at hx
    obtain ⟨y, hy, rfl⟩ := List.mem_map.mp hx
    have := hallv y hy
    simp [this]
  have hex : ∃ x ∈ addAgeSet sl, 0 < x.age := by
    rcases sl with _ | ⟨x, rest⟩
    · exact absurd rfl hne
    · have hxv := hallv x (by simp)
      rw [addAgeSet]
      exact ⟨_, List.mem_map_of_mem _ (List.mem_cons_self x rest), by simp [hxv]⟩
  obtain ⟨j, aj', hgo, hj', hagt, hmax, hfirst⟩ :=
    getOldestGo_argmax (addAgeSet sl) 0 0 none hallv2 hex
  have hgold : getOldest (addAgeSet sl) = some j := by
    rw [getOldest, hgo, Nat.zero_add]
  have hjlen : j < (addAgeSet sl).length := (List.getElem?_eq_some.mp hj').1
  have hjlen2 : j < sl.length := by
    rw [addAgeSet, List.length_map] at hjlen
    exact hjlen
  obtain ⟨aj, haj⟩ : ∃ aj, sl[j]? = some aj := ⟨sl[j], List.getElem?_eq_getElem hjlen2⟩
  have hajv := hallv aj (List.mem_iff_getElem?.mpr ⟨j, haj⟩)
  have hajage : aj'.age = aj.age + 1 := point_aged haj hj' hajv
  have hlt : r.index < st.cache.length := (List.getElem?_eq_some.mp hset).1
  have hread : Read st r =
      some (⟨st.cache.set r.index ((addAgeSet sl).set j { r with valid := true }),
        st.hitMiss ++ [false], st.hits, st.accesses⟩, false) := by
    unfold Read
    rw [hset]
    simp only []
    rw [hmiss]
    simp only []
    rw [if_pos (by rw [isFull_addAgeSet]; exact hfull), hgold]
  refine ⟨j, aj, _, hread, haj, hajv, ?_, ?_, rfl, ?_⟩
  · intro i ai hai
    have haiv := hallv ai (List.mem_iff_getElem?.mpr ⟨i, hai⟩)
    have hai2 : (addAgeSet sl)[i]? = some { ai with age := ai.age + 1 } := by
      rw [addAgeSet_getElem, hai, Option.map_some', if_pos haiv]
    have h2 : ({ ai with age := ai.age + 1 } : Access).age ≤ aj'.age := hmax i _ hai2
    have h3 : ai.age + 1 ≤ aj'.age := h2
    omega
  · intro i ai hij hai
    have haiv := hallv ai (List.mem_iff_getElem?.mpr ⟨i, hai⟩)
    have hai2 : (addAgeSet sl)[i]? = some { ai with age := ai.age + 1 } := by
      rw [addAgeSet_getElem, hai, Option.map_some', if_pos haiv]
    have h2 : ({ ai with age := ai.age + 1 } : Access).age < aj'.age := hfirst i _ hij hai2
    have h3 : ai.age + 1 < aj'.age := h2
    omega
  · refine ⟨(addAgeSet sl).set j { r with valid := true }, ?_, ?_, hage0⟩
    · rw [List.getElem?_set, if_pos rfl, if_pos hlt]
    · rw [List.getElem?_set, if_pos rfl, if_pos hjlen]

/-- A resident line with tag 1 and age 1. -/
def lineA : Access := ⟨"", "", [], 1, 0, 0, 1, true, false⟩

/-- A resident line with tag 2 and age 2 (the oldest in its set). -/
def lineB : Access := ⟨"", "", [], 2, 0, 0, 2, true, false⟩

/-- A read access with a tag matching neither resident line. -/
def evictRead : Access := ⟨"Read", "4", [], 0, 0, 0, 9, true, false⟩

/-- A one-set, two-slot cache holding `lineA` and `lineB`. -/
def evictState : CacheState := ⟨[[lineA, lineB]], [], 0, 0⟩

/-- Witness for `c2_eviction`: missing in the full set `[lineA, lineB]`
evicts the oldest slot. -/
theorem c2_eviction_witness :
    ∃ j aj st', Read evictState evictRead = some (st', false) ∧
      [lineA, lineB][j]? = some aj ∧ aj.valid = true ∧
      (∀ (i : Nat) (ai : Access), [lineA, lineB][i]? = some ai → ai.age ≤ aj.age) ∧
      (∀ (i : Nat) (ai : Access), i < j → [lineA, lineB][i]? = some ai → ai.age < aj.age) ∧
      st'.cache = evictState.cache.set evictRead.index
        ((addAgeSet [lineA, lineB]).set j { evictRead with valid := true }) ∧
      ∃ sl', st'.cache[evictRead.index]? = some sl' ∧
        sl'[j]? = some { evictRead with valid := true } ∧
        ({ evictRead with valid := true } : Access).age = 0 :=
  c2_eviction evictState evictRead [lineA, lineB] (by decide) (by decide) (by decide)
    (by decide) (by decide)

/-! ### `Write` is `Read` plus dirty marking (C5) -/

lemma findMatchGo_some : ∀ (s : List Access) (tg k m : Nat), findMatchGo s tg k = some m →
    k ≤ m ∧ ∃ x, s[m - k]? = some x ∧ x.valid = true ∧ x.tag = tg := by
  intro s
  induction s with
  | nil => intro tg k m h; exact Option.noConfusion h
  | cons y rest ih =>
    intro tg k m h
    rw [findMatchGo] at h
    by_cases hc : (y.valid && y.tag == tg) = true
    · rw [if_pos hc] at h
      obtain rfl := (Option.some.injEq _ _).mp h
      rw [Bool.and_eq_true, beq_iff_eq] at hc
      exact ⟨le_rfl, y, by simp, hc.1, hc.2⟩
    · rw [if_neg hc] at h
      obtain ⟨hkm, x, hx, hv, ht⟩ := ih tg (k + 1) m h
      refine ⟨by omega, x, ?_, hv, ht⟩
      have he : m - k = (m - (k + 1)) + 1 := by omega
      rw [he, List.getElem?_cons_succ]
      exact hx

lemma findMatch_some {s : List Access} {tg m : Nat} (h : findMatch s tg = some m) :
    ∃ x, s[m]? = some x ∧ x.valid = true ∧ x.tag = tg := by
  obtain ⟨-, x, hx, hv, ht⟩ := findMatchGo_some s tg 0 m h
  rw [Nat.sub_zero] at hx
  exact ⟨x, hx, hv, ht⟩

lemma findMatchGo_none : ∀ (s : List Access) (tg k : Nat), findMatchGo s tg k = none →
    ∀ (i : Nat) (x : Access), s[i]? = some x → x.valid = true → x.tag ≠ tg := by
  intro s
  induction s with
  | nil => intro tg k _ i x hx; exact absurd hx (by simp)
  | cons y rest ih =>
    intro tg k h i x hx hv
    rw [findMatchGo] at h
    by_cases hc : (y.valid && y.tag == tg) = true
    · rw [if_pos hc] at h; exact Option.noConfusion h
    · rw [if_neg hc] at h
      cases i with
      | zero =>
        rw [List.getElem?_cons_zero] at hx
        obtain rfl := (Option.some.injEq _ _).mp hx
        intro ht
        exact hc (by rw [Bool.and_eq_true, beq_iff_eq]; exact ⟨hv, ht⟩)
      | succ i' =>
        rw [List.getElem?_cons_succ] at hx
        exact ih tg (k + 1) h i' x hx hv

lemma findMatch_none {s : List Access} {tg : Nat} (h : findMatch s tg = none) :
    ∀ (i : Nat) (x : Access), s[i]? = some x → x.valid = true → x.tag ≠ tg :=
  findMatchGo_none s tg 0 h

/-- C5: `Write` has the same hit/miss outcome as `Read` on the same state
and access and performs the same aging, insertion and eviction: on a miss
the resulting states are identical and every slot of the updated set is
either the aged old slot or the newly inserted line, which is valid with its
dirty flag left false; on a hit the only difference is that the matched
slot's dirty flag is set (log and counters agree). -/
theorem c5_write_refines_read (st : CacheState) (a : Access) (hd : a.dirty = false) :
    (Read st a = none → Write st a = none) ∧
    (∀ (sr : CacheState) (h : Bool), Read st a = some (sr, h) →
      ∃ sw, Write st a = some (sw, h) ∧
        (h = false → sw = sr ∧
          (∀ (sl sl' : List Access) (i : Nat) (y : Access), st.cache[a.index]? = some sl →
            sw.cache[a.index]? = some sl' → sl'[i]? = some y →
            (addAgeSet sl)[i]? = some y ∨
              (y = { a with valid := true } ∧ y.valid = true ∧ y.dirty = false))) ∧
        (h = true → ∃ (sl : List Access) (m : Nat) (x : Access),
          st.cache[a.index]? = some sl ∧
          findMatch (addAgeSet sl) a.tag = some m ∧ (addAgeSet sl)[m]? = some x ∧
          sw.cache = sr.cache.set a.index ((addAgeSet sl).set m { x with dirty := true }) ∧
          sw.hitMiss = sr.hitMiss ∧ sw.hits = sr.hits ∧ sw.accesses = sr.accesses)) := by
  constructor
  · intro hnone
    unfold Read at hnone
    unfold Write
    cases hset : st.cache[a.index]? with
    | none => rfl
    | some sl =>
      rw [hset] at hnone
      simp only [] at hnone ⊢
      cases hfm : findMatch (addAgeSet sl) a.tag with
      | some m => rw [hfm] at hnone; exact Option.noConfusion hnone
      | none =>
        rw [hfm] at hnone
        simp only [] at hnone ⊢
        by_cases hfull : isFull (addAgeSet sl) = true
        · rw [if_pos hfull] at hnone ⊢
          cases hold : getOldest (addAgeSet sl) with
          | some j => rw [hold] at hnone; exact Option.noConfusion hnone
          | none => rfl
        · rw [if_neg hfull] at hnone ⊢
          cases hins : Insert (addAgeSet sl) { a with valid := true } with
          | some out => rw [hins] at hnone; exact Option.noConfusion hnone
          | none => rw [hins] at hnone; exact Option.noConfusion hnone
  · intro sr h hr
    unfold Read at hr
    unfold Write
    cases hset : st.cache[a.index]? with
    | none => rw [hset] at hr; exact Option.noConfusion hr
    | some sl =>
      have hlt : a.index < st.cache.length := (List.getElem?_eq_some.mp hset).1
      rw [hset] at hr
      simp only [] at hr ⊢
      cases hfm : findMatch (addAgeSet sl) a.tag with
      | some m =>
        rw [hfm] at hr
        simp only [Option.some.injEq, Prod.mk.injEq] at hr
        obtain ⟨h1, h2⟩ := hr
        subst h1
        subst h2
        obtain ⟨x, hx, -, -⟩ := findMatch_some hfm
        have hsd : setDirtyAt (addAgeSet sl) m = (addAgeSet sl).set m { x with dirty := true } := by
          unfold setDirtyAt
          rw [hx]
        refine ⟨_, rfl, ?_, ?_⟩
        · intro hfalse
          exact absurd hfalse (by simp)
        · intro _
          refine ⟨sl, m, x, rfl, hfm, hx, ?_, rfl, rfl, rfl⟩
          rw [List.set_set, hsd]
      | none =>
        rw [hfm] at hr
        simp only [] at hr ⊢
        by_cases hfull : isFull (addAgeSet sl) = true
        · rw [if_pos hfull] at hr ⊢
          cases hold : getOldest (addAgeSet sl) with
          | none => rw [hold] at hr; exact Option.noConfusion hr
          | some j =>
            rw [hold] at hr
            simp only [Option.some.injEq, Prod.mk.injEq] at hr
            obtain ⟨h1, h2⟩ := hr
            subst h1
            subst h2
            refine ⟨_, rfl, ?_, ?_⟩
            · intro _
              refine ⟨rfl, ?_⟩
              intro sl0 sl' i y hsl0 hsl' hy
              obtain rfl : sl = sl0 := (Option.some.injEq _ _).mp hsl0
              rw [List.getElem?_set, if_pos rfl, if_pos hlt] at hsl'
              obtain rfl := ((Option.some.injEq _ _).mp hsl').symm
              rw [List.getElem?_set] at hy
              by_cases hij : j = i
              · rw [if_pos hij] at hy
                split at hy
                · obtain rfl := ((Option.some.injEq _ _).mp hy).symm
                  exact Or.inr ⟨rfl, rfl, hd⟩
                · exact Option.noConfusion hy
              · rw [if_neg hij] at hy
                exact Or.inl hy
            · intro htrue
              exact absurd htrue (by simp)
        · rw [if_neg hfull] at hr ⊢
          cases hins : Insert (addAgeSet sl) { a with valid := true } with
          | some out =>
            rw [hins] at hr
            simp only [Option.some.injEq, Prod.mk.injEq] at hr
            obtain ⟨h1, h2⟩ := hr
            subst h1
            subst h2
            refine ⟨_, rfl, ?_, ?_⟩
            · intro _
              refine ⟨rfl, ?_⟩
              intro sl0 sl' i y hsl0 hsl' hy
              obtain rfl : sl = sl0 := (Option.some.injEq _ _).mp hsl0
              rw [List.getElem?_set, if_pos rfl, if_pos hlt] at hsl'
              obtain rfl := ((Option.some.injEq _ _).mp hsl').symm
              obtain ⟨j, xx, hxx, -, -, rfl⟩ := Insert_eq_set _ _ _ hins
              rw [List.getElem?_set] at hy
              by_cases hij : j = i
              · rw [if_pos hij] at hy
                split at hy
                · obtain rfl := ((Option.some.injEq _ _).mp hy).symm
                  exact Or.inr ⟨rfl, rfl, hd⟩
                · exact Option.noConfusion hy
              · rw [if_neg hij] at hy
                exact Or.inl hy
            · intro htrue
              exact absurd htrue (by simp)
          | none =>
            rw [hins] at hr
            simp only [Option.some.injEq, Prod.mk.injEq] at hr
            obtain ⟨h1, h2⟩ := hr
            subst h1
            subst h2
            refine ⟨_, rfl, ?_, ?_⟩
            · intro _
              refine ⟨rfl, ?_⟩
              intro sl0 sl' i y hsl0 hsl' hy
              obtain rfl : sl = sl0 := (Option.some.injEq _ _).mp hsl0
              rw [List.getElem?_set, if_pos rfl, if_pos hlt] at hsl'
              obtain rfl := ((Option.some.injEq _ _).mp hsl').symm
              exact Or.inl hy
            · intro htrue
              exact absurd htrue (by simp)

/-- Witness for `c5_write_refines_read`: on the probe hit, `Write` returns
the same hit flag and differs from `Read` only in the matched slot's dirty
bit. -/
theorem c5_write_refines_read_witness :
    ∃ sw, Write probeState probeRead = some (sw, true) ∧
      (true = false → sw = probeStateHit ∧
        (∀ (sl sl' : List Access) (i : Nat) (y : Access),
          probeState.cache[probeRead.index]? = some sl →
          sw.cache[probeRead.index]? = some sl' → sl'[i]? = some y →
          (addAgeSet sl)[i]? = some y ∨
            (y = { probeRead with valid := true } ∧ y.valid = true ∧ y.dirty = false))) ∧
      (true = true → ∃ (sl : List Access) (m : Nat) (x : Access),
        probeState.cache[probeRead.index]? = some sl ∧
        findMatch (addAgeSet sl) probeRead.tag = some m ∧ (addAgeSet sl)[m]? = some x ∧
        sw.cache = probeStateHit.cache.set probeRead.index
          ((addAgeSet sl).set m { x with dirty := true }) ∧
        sw.hitMiss = probeStateHit.hitMiss ∧ sw.hits = probeStateHit.hits ∧
        sw.accesses = probeStateHit.accesses) :=
  (c5_write_refines_read probeState probeRead (by decide)).2 probeStateHit true (by decide)

/-! ### At most one valid slot per tag in each set (C8) -/

lemma TagsUnique_replicate (k : Nat) : TagsUnique (List.replicate k Access.mkDefault) := by
  intro i j x y hx _ hxv _ _
  rw [List.getElem?_replicate] at hx
  split at hx
  · obtain rfl := ((Option.some.injEq _ _).mp hx).symm
    exact absurd hxv (by decide)
  · exact Option.noConfusion hx

lemma addAgeSet_valid_tag {sl : List Access} {i : Nat} {x : Access}
    (h : (addAgeSet sl)[i]? = some x) :
    ∃ a, sl[i]? = some a ∧ x.valid = a.valid ∧ x.tag = a.tag := by
  rw [addAgeSet_getElem] at h
  cases ha : sl[i]? with
  | none => rw [ha] at h; exact Option.noConfusion h
  | some a =>
    rw [ha, Option.map_some'] at h
    obtain rfl := ((Option.some.injEq _ _).mp h).symm
    by_cases hv : a.valid = true
    · exact ⟨a, rfl, by simp [hv], by simp [hv]⟩
    · exact ⟨a, rfl, by simp [hv], by simp [hv]⟩

lemma TagsUnique_addAgeSet {sl : List Access} (h : TagsUnique sl) :
    TagsUnique (addAgeSet sl) := by
  intro i j x y hx hy hxv hyv htag
  obtain ⟨a0, ha0, hva, hta⟩ := addAgeSet_valid_tag hx
  obtain ⟨b0, hb0, hvb, htb⟩ := addAgeSet_valid_tag hy
  exact h i j a0 b0 ha0 hb0 (by rw [← hva]; exact hxv) (by rw [← hvb]; exact hyv)
    (by rw [← hta, ← htb]; exact htag)

lemma TagsUnique_set_new {sl : List Access} {j : Nat} {r' : Access}
    (h : TagsUnique sl)
    (hnone : ∀ (i : Nat) (x : Access), sl[i]? = some x → x.valid = true → x.tag ≠ r'.tag) :
    TagsUnique (sl.set j r') := by
  intro i i2 x y hx hy hxv hyv htag
  rw [List.getElem?_set] at hx hy
  by_cases hji : j = i <;> by_cases hji2 : j = i2
  · omega
  · rw [if_pos hji] at hx
    rw [if_neg hji2] at hy
    split at hx
    · obtain rfl := ((Option.some.injEq _ _).mp hx).symm
      exact absurd htag.symm (hnone i2 y hy hyv)
    · exact Option.noConfusion hx
  · rw [if_neg hji] at hx
    rw [if_pos hji2] at hy
    split at hy
    · obtain rfl := ((Option.some.injEq _ _).mp hy).symm
      exact absurd htag (hnone i x hx hxv)
    · exact Option.noConfusion hy
  · rw [if_neg hji] at hx
    rw [if_neg hji2] at hy
    exact h i i2 x y hx hy hxv hyv htag

lemma TagsUnique_setDirtyAt {sl : List Access} {m : Nat} (h : TagsUnique sl) :
    TagsUnique (setDirtyAt sl m) := by
  unfold setDirtyAt
  cases hx : sl[m]? with
  | none => exact h
  | some x =>
    simp only []
    intro i j y z hy hz hyv hzv htag
    rw [List.getElem?_set] at hy hz
    by_cases hmi : m = i <;> by_cases hmj : m = j
    · omega
    · rw [if_pos hmi] at hy
      rw [if_neg hmj] at hz
      split at hy
      · obtain rfl := ((Option.some.injEq _ _).mp hy).symm
        subst hmi
        exact h m j x z hx hz hyv hzv htag
      · exact Option.noConfusion hy
    · rw [if_neg hmi] at hy
      rw [if_pos hmj] at hz
      split at hz
      · obtain rfl := ((Option.some.injEq _ _).mp hz).symm
        subst hmj
        exact h i m y x hy hx hyv hzv htag
      · exact Option.noConfusion hz
    · rw [if_neg hmi] at hy
      rw [if_neg hmj] at hz
      exact h i j y z hy hz hyv hzv htag

/-- C8: in every state reachable from a freshly constructed cache by `Read`
and `Write` steps, each set holds at most one valid slot with any given tag
(hit lookup precedes insertion, and insertion/eviction writes a tag that was
not present among the set's valid slots). -/
theorem c8_tag_uniqueness : ∀ st : CacheState, Reachable st →
    ∀ (t : Nat) (sl : List Access), st.cache[t]? = some sl → TagsUnique sl := by
  intro st hreach
  induction hreach with
  | init numSets setSize =>
    intro t sl hsl
    simp only [initState] at hsl
    rw [List.getElem?_replicate] at hsl
    split at hsl
    · obtain rfl := ((Option.some.injEq _ _).mp hsl).symm
      exact TagsUnique_replicate _
    · exact Option.noConfusion hsl
  | read st a st' h _ hstep ih =>
    intro t sl' hsl'
    obtain ⟨sl, hsl, -, -, -, hcase⟩ := Read_some_shape hstep
    have haged : TagsUnique (addAgeSet sl) := TagsUnique_addAgeSet (ih _ _ hsl)
    have hXspec : ∃ X, st'.cache = st.cache.set a.index X ∧ TagsUnique X := by
      rcases hcase with ⟨-, -, hcache⟩ | ⟨-, hfm, X, hcache, hX⟩
      · exact ⟨_, hcache, haged⟩
      · have hnone := findMatch_none hfm
        rcases hX with ⟨-, j, -, rfl⟩ | ⟨-, ⟨j, xx, -, -, -, rfl⟩ | rfl⟩
        · exact ⟨_, hcache, TagsUnique_set_new haged fun i x hx hv => hnone i x hx hv⟩
        · exact ⟨_, hcache, TagsUnique_set_new haged fun i x hx hv => hnone i x hx hv⟩
        · exact ⟨_, hcache, haged⟩
    obtain ⟨X, hcache, hXu⟩ := hXspec
    rw [hcache, List.getElem?_set] at hsl'
    by_cases hti : a.index = t
    · rw [if_pos hti] at hsl'
      split at hsl'
      · obtain rfl := ((Option.some.injEq _ _).mp hsl').symm
        exact hXu
      · exact Option.noConfusion hsl'
    · rw [if_neg hti] at hsl'
      exact ih t sl' hsl'
  | write st a st' h _ hstep ih =>
    intro t sl' hsl'
    obtain ⟨sl, hsl, -, -, -, hcase⟩ := Write_some_shape hstep
    have haged : TagsUnique (addAgeSet sl) := TagsUnique_addAgeSet (ih _ _ hsl)
    have hXspec : ∃ X, st'.cache = st.cache.set a.index X ∧ TagsUnique X := by
      rcases hcase with ⟨-, m, -, hcache⟩ | ⟨-, hfm, X, hcache, hX⟩
      · exact ⟨_, hcache, TagsUnique_setDirtyAt haged⟩
      · have hnone := findMatch_none hfm
        rcases hX with ⟨-, j, -, rfl⟩ | ⟨-, ⟨j, xx, -, -, -, rfl⟩ | rfl⟩
        · exact ⟨_, hcache, TagsUnique_set_new haged fun i x hx hv => hnone i x hx hv⟩
        · exact ⟨_, hcache, TagsUnique_set_new haged fun i x hx hv => hnone i x hx hv⟩
        · exact ⟨_, hcache, haged⟩
    obtain ⟨X, hcache, hXu⟩ := hXspec
    rw [hcache, List.getElem?_set] at hsl'
    by_cases hti : a.index = t
    · rw [if_pos hti] at hsl'
      split at hsl'
      · obtain rfl := ((Option.some.injEq _ _).mp hsl').symm
        exact hXu
      · exact Option.noConfusion hsl'
    · rw [if_neg hti] at hsl'
      exact ih t sl' hsl'

/-- Witness for `c8_tag_uniqueness`: the state reached by one probe `Read`
from a fresh cache has unique tags in its set. -/
theorem c8_tag_uniqueness_witness :
    TagsUnique [{ Access.mkOp "Read" with valid := true }] :=
  c8_tag_uniqueness ⟨[[{ Access.mkOp "Read" with valid := true }]], [false], 0, 0⟩
    (Reachable.read (initState 1 1) (Access.mkOp "Read")
      ⟨[[{ Access.mkOp "Read" with valid := true }]], [false], 0, 0⟩ false
      (Reachable.init 1 1) (by decide))
    0 [{ Access.mkOp "Read" with valid := true }] (by decide)

/-! ### Field decoding recombines to the original address (C4) -/

lemma substr_some {s : List Char} {pos : Nat} (len : Nat) (h : pos ≤ s.length) :
    substr s pos len = some ((s.drop pos).take len) := by
  rw [substr, if_pos h]

lemma binStringToInt_append : ∀ x y : List Char,
    binStringToInt (x ++ y) = binStringToInt x * 2 ^ y.length + binStringToInt y := by
  intro x y
  induction x with
  | nil => simp [binStringToInt]
  | cons ch rest ih =>
    rw [List.cons_append, binStringToInt, binStringToInt, ih, List.length_append]
    by_cases hc : ch = '1'
    · rw [if_pos hc, if_pos hc, pow_add]
      ring
    · rw [if_neg hc, if_neg hc]
      ring

lemma binStringToInt_lt : ∀ s : List Char, binStringToInt s < 2 ^ s.length := by
  intro s
  induction s with
  | nil => simp [binStringToInt]
  | cons ch rest ih =>
    rw [binStringToInt, List.length_cons, pow_succ]
    by_cases hc : ch = '1'
    · rw [if_pos hc]
      omega
    · rw [if_neg hc]
      omega

lemma hexToBin_length {ch : Char} (h : isHexLower ch = true) : (hexToBin ch).length = 4 := by
  rw [isHexLower, decide_eq_true_eq] at h
  rcases h with rfl | rfl | rfl | rfl | rfl | rfl | rfl | rfl | rfl | rfl | rfl | rfl | rfl |
    rfl | rfl | rfl <;> rfl

lemma parseHex_length : ∀ s : List Char, (∀ ch ∈ s, isHexLower ch = true) →
    (parseHex s).length = 4 * s.length := by
  intro s
  induction s with
  | nil => intro _; rfl
  | cons ch rest ih =>
    intro h
    rw [parseHex, List.length_append, ih fun y hy => h y (by simp [hy]),
      hexToBin_length (h ch (by simp)), List.length_cons]
    ring

/-- C4: for a valid power-of-two configuration and an 8-hex-digit address
whose index field lies in `[0, numSets)` before the modulo reduction, the
decoded tag, index and offset — at widths `32 − offsetBits − log2(numSets)`,
`log2(numSets)` and `offsetBits` — recombine as `tag‖index‖offset` to the
original 32-bit address value. -/
theorem c4_decode_recombination (cfg : Config) (a l c : Nat) (s : List Char)
    (hsz : cfg.setSize = 2 ^ a) (hls : cfg.lineSize = 2 ^ l) (hcs : cfg.cacheSize = 2 ^ c)
    (hac : a + l ≤ c) (hc32 : c + l ≤ 32)
    (hlen : s.length = 8) (hhex : ∀ ch ∈ s, isHexLower ch = true)
    (hinrange : binStringToInt
        (((parseHex s).drop (32 - cfg.offsetBits - cfg.indexBits)).take cfg.indexBits) <
      cfg.numSets) :
    ∃ T I O, calcTag cfg s = some T ∧ calcIndex cfg s = some I ∧ calcOffset cfg s = some O ∧
      T < 2 ^ (32 - cfg.offsetBits - ilog2 cfg.numSets) ∧ I < cfg.numSets ∧
      O < 2 ^ cfg.offsetBits ∧
      T * 2 ^ (ilog2 cfg.numSets + cfg.offsetBits) + I * 2 ^ cfg.offsetBits + O =
        binStringToInt (parseHex s) := by
  obtain ⟨ho, hi, ht, hn⟩ := Config.derived_of_pow hsz hls hcs hac
  set b := parseHex s with hb
  set i2 := c - a - l with hi2
  have hilog : ilog2 cfg.numSets = i2 := by rw [hn, ilog2_two_pow]
  have hblen : b.length = 32 := by rw [hb, parseHex_length s hhex, hlen]
  have e1 : 32 - c + a = 32 - l - i2 := by omega
  have htagv : calcTag cfg s = some (binStringToInt (b.take (32 - l - i2))) := by
    rw [calcTag, ← hb, substr_some _ (Nat.zero_le _)]
    simp only []
    rw [List.drop_zero, ht, e1]
  have hidxv : calcIndex cfg s =
      some (binStringToInt ((b.drop (32 - l - c)).take c) % cfg.numSets) := by
    rw [calcIndex, ← hb, ho, hi, substr_some _ (by omega)]
  have hoffv : calcOffset cfg s = some (binStringToInt (b.drop (32 - l))) := by
    have hofflen : (b.drop (32 - l)).take l = b.drop (32 - l) := by
      apply List.take_of_length_le
      rw [List.length_drop, hblen]
      omega
    rw [calcOffset, ← hb, ho, substr_some _ (by omega)]
    simp only []
    rw [hofflen]
  have hmid : ((b.drop (32 - l - c)).take c).drop (c - i2) = (b.drop (32 - l - i2)).take i2 := by
    rw [List.drop_take, List.drop_drop]
    congr 1
    · omega
    · congr 1
      omega
  have hidxsplit : ((b.drop (32 - l - c)).take c).take (c - i2) ++
      (b.drop (32 - l - i2)).take i2 = (b.drop (32 - l - c)).take c := by
    rw [← hmid, List.take_append_drop]
  have hsplit : b.take (32 - l - i2) ++
      ((b.drop (32 - l - i2)).take i2 ++ b.drop (32 - l)) = b := by
    have h2 : (b.drop (32 - l - i2)).take i2 ++ (b.drop (32 - l - i2)).drop i2 =
        b.drop (32 - l - i2) := List.take_append_drop _ _
    have h3 : (b.drop (32 - l - i2)).drop i2 = b.drop (32 - l) := by
      rw [List.drop_drop]
      congr 1
      omega
    rw [← h3, h2, List.take_append_drop]
  have hmidlen : ((b.drop (32 - l - i2)).take i2).length = i2 := by
    rw [List.length_take, List.length_drop, hblen]
    omega
  have hofflen2 : (b.drop (32 - l)).length = l := by
    rw [List.length_drop, hblen]
    omega
  have htaglen : (b.take (32 - l - i2)).length = 32 - l - i2 := by
    rw [List.length_take, hblen]
    omega
  have hMlt : binStringToInt ((b.drop (32 - l - i2)).take i2) < 2 ^ i2 := by
    have h4 := binStringToInt_lt ((b.drop (32 - l - i2)).take i2)
    rw [hmidlen] at h4
    exact h4
  have hImod : binStringToInt ((b.drop (32 - l - c)).take c) % cfg.numSets =
      binStringToInt ((b.drop (32 - l - i2)).take i2) := by
    conv_lhs => rw [← hidxsplit]
    rw [binStringToInt_append, hmidlen, hn, Nat.mul_add_mod']
    exact Nat.mod_eq_of_lt hMlt
  have hval : binStringToInt b =
      binStringToInt (b.take (32 - l - i2)) * 2 ^ (i2 + l) +
        (binStringToInt ((b.drop (32 - l - i2)).take i2) * 2 ^ l +
          binStringToInt (b.drop (32 - l))) := by
    conv_lhs => rw [← hsplit]
    rw [binStringToInt_append, binStringToInt_append, List.length_append, hmidlen, hofflen2]
  refine ⟨binStringToInt (b.take (32 - l - i2)),
    binStringToInt ((b.drop (32 - l - i2)).take i2),
    binStringToInt (b.drop (32 - l)), htagv, ?_, hoffv, ?_, ?_, ?_, ?_⟩
  · rw [hidxv, hImod]
  · rw [ho, hilog]
    have h5 := binStringToInt_lt (b.take (32 - l - i2))
    rw [htaglen] at h5
    exact h5
  · rw [hn]
    exact hMlt
  · rw [ho]
    have h6 := binStringToInt_lt (b.drop (32 - l))
    rw [hofflen2] at h6
    exact h6
  · rw [hilog, ho, hval]
    ring

/-- Witness for `c4_decode_recombination` at configuration
`{A=1, L=4, C=16}` and address `00000000`. -/
theorem c4_decode_recombination_witness :
    ∃ T I O, calcTag cfg16 "00000000".data = some T ∧
      calcIndex cfg16 "00000000".data = some I ∧
      calcOffset cfg16 "00000000".data = some O ∧
      T < 2 ^ (32 - cfg16.offsetBits - ilog2 cfg16.numSets) ∧ I < cfg16.numSets ∧
      O < 2 ^ cfg16.offsetBits ∧
      T * 2 ^ (ilog2 cfg16.numSets + cfg16.offsetBits) + I * 2 ^ cfg16.offsetBits + O =
        binStringToInt (parseHex "00000000".data) :=
  c4_decode_recombination cfg16 0 2 4 "00000000".data (by decide) (by decide) (by decide)
    (by decide) (by decide) (by decide) (by decide) (by decide)

end CacheSim
